import Mathlib

/-!
Verification of the BIP39 seed-phrase detector of `bip39_words.py`
(thresholds from `config.py`).  Text is modelled as `List Char`; a loaded
dictionary is modelled by its membership test `List Char → Bool`, the only
way `bip39_words` is consumed (`word in bip39_words`).
-/

namespace DelBip39

/-- Tokens are words extracted from a text, modelled as character lists. -/
abbrev Token := List Char

/-- Embeds `config.MIN_SEED_WORDS` from config.py line 14. -/
def MIN_SEED_WORDS : Nat := 12

/-- Python whitespace: the characters matched by `\s` in the `re` module on
strings and stripped or split on by `str.strip()` / `str.split()` (both are
`Py_UNICODE_ISSPACE`): tab 9, LF 10, VT 11, FF 12, CR 13, the file and
record separators 28-31, space 32, NEL 133, NBSP 160, Ogham space 5760, the
typographic spaces 8192-8202, line and paragraph separators 8232 and 8233,
narrow NBSP 8239, math space 8287, ideographic space 12288. -/
def isPySpace (c : Char) : Bool :=
  decide (c.toNat = 9 ∨ c.toNat = 10 ∨ c.toNat = 11 ∨ c.toNat = 12 ∨
    c.toNat = 13 ∨ (28 ≤ c.toNat ∧ c.toNat ≤ 32) ∨ c.toNat = 133 ∨
    c.toNat = 160 ∨ c.toNat = 5760 ∨ (8192 ≤ c.toNat ∧ c.toNat ≤ 8202) ∨
    c.toNat = 8232 ∨ c.toNat = 8233 ∨ c.toNat = 8239 ∨ c.toNat = 8287 ∨
    c.toNat = 12288)

/-- ASCII letter, the character class `[a-zA-Z]`. -/
def isAsciiLetter (c : Char) : Bool :=
  decide ((65 ≤ c.toNat ∧ c.toNat ≤ 90) ∨ (97 ≤ c.toNat ∧ c.toNat ≤ 122))

/-- Embeds `re.sub(r'[^a-zA-Z\s]', ' ', text)` of bip39_words.py line 53:
every character that is neither an ASCII letter nor whitespace is replaced
by a single space. -/
def subNonLetters (text : List Char) : List Char :=
  text.map (fun c => if isAsciiLetter c || isPySpace c then c else ' ')

/-- Helper for `pySplit`; `acc` is the reversed current token. -/
def pySplitAux : List Char → List Char → List Token
  | [], acc => if acc.isEmpty then [] else [acc.reverse]
  | c :: cs, acc =>
    if isPySpace c then
      if acc.isEmpty then pySplitAux cs [] else acc.reverse :: pySplitAux cs []
    else pySplitAux cs (c :: acc)

/-- Embeds Python `str.split()` with no argument: split on runs of
whitespace, dropping empty pieces. -/
def pySplit (s : List Char) : List Token := pySplitAux s []

/-- Embeds Python `str.lower()` on one character.  The tokens it is applied
to in this program consist of ASCII letters only (see
`extract_english_words_token_chars`), where Unicode lowercasing coincides
with the ASCII shift by 32. -/
def pyLowerChar (c : Char) : Char :=
  if 65 ≤ c.toNat ∧ c.toNat ≤ 90 then Char.ofNat (c.toNat + 32) else c

/-- Embeds Python `str.strip()`: drop leading and trailing whitespace. -/
def pyStrip (s : List Char) : List Char :=
  ((s.dropWhile isPySpace).reverse.dropWhile isPySpace).reverse

/-- Embeds `extract_english_words` of bip39_words.py lines 41-58: replace
non-letters by spaces, split on whitespace, keep words with a nonempty
strip, lowercase them. -/
def extract_english_words (text : List Char) : List Token :=
  ((pySplit (subNonLetters text)).filter (fun w => !(pyStrip w).isEmpty)).map
    (fun w => w.map pyLowerChar)

/-- Embeds `bip39_matches = [word for word in words if word in bip39_words]`
of bip39_words.py line 79. -/
def bip39_matches (D : Token → Bool) (words : List Token) : List Token :=
  words.filter D

/-- Embeds the `consecutive_count` / `max_consecutive` loop of
`is_potential_seed_phrase`, bip39_words.py lines 86-94. -/
def maxConsecutiveAux (D : Token → Bool) : List Token → Nat → Nat → Nat
  | [], _, maxc => maxc
  | w :: ws, cur, maxc =>
    if D w then maxConsecutiveAux D ws (cur + 1) (max maxc (cur + 1))
    else maxConsecutiveAux D ws 0 maxc

/-- Value of `max_consecutive` after the loop (counters start at 0). -/
def maxConsecutive (D : Token → Bool) (words : List Token) : Nat :=
  maxConsecutiveAux D words 0 0

/-- Embeds the slice `words[i:i+config.MIN_SEED_WORDS]`. -/
def windowAt (words : List Token) (i : Nat) : List Token :=
  (words.drop i).take MIN_SEED_WORDS

/-- Number of dictionary hits in the window starting at `i`
(`matched_count`, bip39_words.py line 104). -/
def windowHits (D : Token → Bool) (words : List Token) (i : Nat) : Nat :=
  ((windowAt words i).filter D).length

/-- Embeds the comparison `matched_count >= config.MIN_SEED_WORDS * 0.9` of
bip39_words.py lines 107 and 163, rendered in exact rational arithmetic as
`9 * MIN_SEED_WORDS ≤ 10 * matched_count`.  For `MIN_SEED_WORDS = 12` the
IEEE double product `12 * 0.9` lies strictly between 10.8 and 11, so the
float comparison against the integer `matched_count` holds exactly when
`matched_count ≥ 11`, which is also what the exact comparison states. -/
def windowDense (D : Token → Bool) (words : List Token) (i : Nat) : Bool :=
  decide (9 * MIN_SEED_WORDS ≤ 10 * windowHits D words i)

/-- Embeds the window loop of `is_potential_seed_phrase`, bip39_words.py
lines 102-109: `for i in range(len(words) - MIN_SEED_WORDS + 1)`, returning
`True` as soon as a window is dense. -/
def hasDenseWindow (D : Token → Bool) (words : List Token) : Bool :=
  (List.range (words.length - MIN_SEED_WORDS + 1)).any (windowDense D words)

/-- Embeds `is_potential_seed_phrase` of bip39_words.py lines 60-121.  The
density test `len(bip39_matches) / len(words) >= 0.5` of lines 114-117 is
rendered exactly as `len(words) ≤ 2 * len(bip39_matches)`: 0.5 is exactly
representable, the double quotient of two list lengths (far below `2^52`)
rounds to a value on the same side of 0.5 as the exact quotient, and the
guard on line 75 keeps the denominator positive. -/
def is_potential_seed_phrase (text : List Char) (D : Token → Bool) : Bool :=
  let words := extract_english_words text
  if words.length < MIN_SEED_WORDS then false
  else if (bip39_matches D words).length < MIN_SEED_WORDS then false
  else if MIN_SEED_WORDS ≤ maxConsecutive D words then true
  else if hasDenseWindow D words then true
  else if MIN_SEED_WORDS ≤ (bip39_matches D words).length ∧
      words.length ≤ 2 * (bip39_matches D words).length then true
  else false

/-- Embeds `" ".join(ws)`. -/
def joinSpaces (ws : List Token) : Token := List.intercalate [' '] ws

/-- Embeds method 1 of `extract_seed_phrases`, bip39_words.py lines 143-155:
accumulate runs of dictionary tokens (`cur` is the reversed accumulator
`current_phrase`) and emit each run of length at least `MIN_SEED_WORDS` as a
space-joined phrase, in scan order. -/
def contiguousAux (D : Token → Bool) : List Token → List Token → List Token
  | [], cur => if MIN_SEED_WORDS ≤ cur.length then [joinSpaces cur.reverse] else []
  | w :: ws, cur =>
    if D w then contiguousAux D ws (w :: cur)
    else
      (if MIN_SEED_WORDS ≤ cur.length then [joinSpaces cur.reverse] else []) ++
        contiguousAux D ws []

/-- Phrases emitted by method 1 (accumulator starts empty). -/
def contiguousPhrases (D : Token → Bool) (words : List Token) : List Token :=
  contiguousAux D words []

/-- Embeds method 2 of `extract_seed_phrases`, bip39_words.py lines 157-164:
for each window of `MIN_SEED_WORDS` consecutive tokens whose matched tokens
pass the 90% threshold, emit the space-joined matched tokens of that
window. -/
def windowPhrases (D : Token → Bool) (words : List Token) : List Token :=
  (List.range (words.length - MIN_SEED_WORDS + 1)).filterMap (fun i =>
    if windowDense D words i then some (joinSpaces ((windowAt words i).filter D))
    else none)

/-- Embeds `list(set(xs))` of bip39_words.py line 167: deduplication via a
set.  This rendering keeps the last occurrence of each phrase; the Python
iteration order of a set is unspecified, and only the underlying set of
elements is relied upon. -/
def dedup : List Token → List Token
  | [] => []
  | x :: xs => if x ∈ xs then dedup xs else x :: dedup xs

/-- Embeds `extract_seed_phrases` of bip39_words.py lines 123-167. -/
def extract_seed_phrases (text : List Char) (D : Token → Bool) : List Token :=
  let words := extract_english_words text
  if words.length < MIN_SEED_WORDS then []
  else dedup (contiguousPhrases D words ++ windowPhrases D words)

/-- Embeds `load_bip39_words` of bip39_words.py lines 13-39, with the
filesystem outcome abstracted: `none` models a missing file (line 27) as
well as any I/O or decoding failure (line 37) — both branches
`return set()` in the source — and `some lines` models a successful UTF-8
read of the file as its list of lines.  The success branch embeds
`set(line.strip() for line in f if line.strip())` of line 32. -/
def load_bip39_words (contents : Option (List (List Char))) : List Token :=
  match contents with
  | none => []
  | some lines => dedup ((lines.filter (fun l => !(pyStrip l).isEmpty)).map pyStrip)

/-- Variant of `is_potential_seed_phrase` instrumented for the one fallible
operation in its source, the division `len(bip39_matches) / len(words)` of
bip39_words.py line 114: `none` models a `ZeroDivisionError` escaping. -/
def is_potential_seed_phrase_checked (text : List Char) (D : Token → Bool) :
    Option Bool :=
  let words := extract_english_words text
  if words.length < MIN_SEED_WORDS then some false
  else if (bip39_matches D words).length < MIN_SEED_WORDS then some false
  else if MIN_SEED_WORDS ≤ maxConsecutive D words then some true
  else if hasDenseWindow D words then some true
  else if MIN_SEED_WORDS ≤ (bip39_matches D words).length then
    if words.length = 0 then none
    else if words.length ≤ 2 * (bip39_matches D words).length then some true
    else some false
  else some false

/-- The 12-word dictionary used by the spec's concrete scenarios. -/
def specDictWords : List Token :=
  ["abandon", "ability", "able", "about", "above", "absent", "absorb",
   "abstract", "absurd", "abuse", "access", "accident"].map String.toList

/-- Membership test of the 12-word dictionary. -/
def specDict : Token → Bool := fun w => decide (w ∈ specDictWords)

/-- The space-joined list of the 12 dictionary words. -/
def c5text : List Char :=
  ("abandon ability able about above absent absorb abstract absurd abuse " ++
   "access accident").toList

/-- The 12-token text with 11 dictionary hits and the noise token `xyz`. -/
def c2text : List Char :=
  ("abandon ability able xyz about above absent absorb abstract absurd " ++
   "abuse access").toList

/-! Proof infrastructure. -/

/-- Reachability of a contiguous run of `MIN_SEED_WORDS` dictionary tokens,
where `cur` is the length of the run in progress; proof-side companion of
`maxConsecutiveAux` and `contiguousAux`. -/
def runsReach (D : Token → Bool) : List Token → Nat → Prop
  | [], cur => MIN_SEED_WORDS ≤ cur
  | w :: ws, cur =>
    if D w then runsReach D ws (cur + 1)
    else MIN_SEED_WORDS ≤ cur ∨ runsReach D ws 0

/-- Runs that already reached the threshold stay reached. -/
lemma runsReach_of_le (D : Token → Bool) :
    ∀ (ws : List Token) (cur : Nat), MIN_SEED_WORDS ≤ cur → runsReach D ws cur := by
  intro ws
  induction ws with
  | nil => intro cur h; exact h
  | cons w ws ih =>
    intro cur h
    by_cases hw : D w
    · simpa [runsReach, hw] using ih (cur + 1) (Nat.le_succ_of_le h)
    · simp [runsReach, hw]; left; exact h

/-- A longer run in progress keeps `runsReach` reachable. -/
lemma runsReach_mono_cur (D : Token → Bool) :
    ∀ (ws : List Token) (cur cur₂ : Nat), cur ≤ cur₂ →
      runsReach D ws cur → runsReach D ws cur₂ := by
  intro ws
  induction ws with
  | nil => intro cur cur₂ hle h; exact Nat.le_trans h hle
  | cons w ws ih =>
    intro cur cur₂ hle h
    by_cases hw : D w
    · simp only [runsReach, hw, if_true] at h ⊢
      exact ih (cur + 1) (cur₂ + 1) (Nat.succ_le_succ hle) h
    · simp only [runsReach, hw, if_false] at h ⊢
      rcases h with h | h
      · exact Or.inl (Nat.le_trans h hle)
      · exact Or.inr h

/-- The `max_consecutive` loop reaches the threshold exactly when the
starting maximum already has or a run reaches it. -/
lemma maxConsecutiveAux_ge_iff (D : Token → Bool) :
    ∀ (ws : List Token) (cur maxc : Nat), cur ≤ maxc →
      (MIN_SEED_WORDS ≤ maxConsecutiveAux D ws cur maxc ↔
        MIN_SEED_WORDS ≤ maxc ∨ runsReach D ws cur) := by
  intro ws
  induction ws with
  | nil =>
    intro cur maxc hcm
    simp only [maxConsecutiveAux, runsReach]
    constructor
    · exact Or.inl
    · rintro (h | h)
      · exact h
      · exact Nat.le_trans h hcm
  | cons w ws ih =>
    intro cur maxc hcm
    simp only [maxConsecutiveAux, runsReach]
    by_cases hw : D w
    · rw [if_pos hw, if_pos hw,
        ih (cur + 1) (max maxc (cur + 1)) (Nat.le_max_right _ _)]
      constructor
      · rintro (h | h)
        · rcases Nat.le_total maxc (cur + 1) with hle | hle
          · rw [Nat.max_eq_right hle] at h
            exact Or.inr (runsReach_of_le D ws (cur + 1) h)
          · rw [Nat.max_eq_left hle] at h
            exact Or.inl h
        · exact Or.inr h
      · rintro (h | h)
        · exact Or.inl (Nat.le_trans h (Nat.le_max_left _ _))
        · exact Or.inr h
    · rw [if_neg hw, if_neg hw, ih 0 maxc (Nat.zero_le _)]
      constructor
      · rintro (h | h)
        · exact Or.inl h
        · exact Or.inr (Or.inr h)
      · rintro (h | h | h)
        · exact Or.inl h
        · exact Or.inl (Nat.le_trans h hcm)
        · exact Or.inr h

/-- The contiguous-run strategy fires exactly when a run reaches the
threshold. -/
lemma maxConsecutive_ge_iff (D : Token → Bool) (words : List Token) :
    MIN_SEED_WORDS ≤ maxConsecutive D words ↔ runsReach D words 0 := by
  rw [maxConsecutive, maxConsecutiveAux_ge_iff D words 0 0 (Nat.le_refl 0)]
  simp [MIN_SEED_WORDS]

/-- Method 1 of the extractor emits a phrase exactly when a run reaches the
threshold. -/
lemma contiguousAux_ne_nil_iff (D : Token → Bool) :
    ∀ (ws cur : List Token),
      (contiguousAux D ws cur ≠ [] ↔ runsReach D ws cur.length) := by
  intro ws
  induction ws with
  | nil =>
    intro cur
    simp only [contiguousAux, runsReach]
    by_cases h : MIN_SEED_WORDS ≤ cur.length <;> simp [h]
  | cons w ws ih =>
    intro cur
    simp only [contiguousAux, runsReach]
    by_cases hw : D w
    · rw [if_pos hw, if_pos hw]
      simpa using ih (w :: cur)
    · rw [if_neg hw, if_neg hw]
      by_cases h : MIN_SEED_WORDS ≤ cur.length
      · simp [if_pos h, h]
      · rw [if_neg h, List.nil_append, ih []]
        simp [h]

/-- Method 2 of the extractor emits a phrase exactly when the classifier
window scan finds a dense window. -/
lemma windowPhrases_eq_nil_iff (D : Token → Bool) (words : List Token) :
    windowPhrases D words = [] ↔ hasDenseWindow D words = false := by
  simp only [windowPhrases, hasDenseWindow, List.filterMap_eq_nil_iff,
    List.any_eq_false]
  constructor
  · intro h i hi hb
    have hh := h i hi
    rw [if_pos hb] at hh
    cases hh
  · intro h i hi
    rw [if_neg (h i hi)]

/-- Membership is invariant under deduplication. -/
lemma mem_dedup (x : Token) : ∀ (l : List Token), x ∈ dedup l ↔ x ∈ l := by
  intro l
  induction l with
  | nil => simp [dedup]
  | cons y ys ih =>
    by_cases h : y ∈ ys
    · simp only [dedup, if_pos h, ih, List.mem_cons]
      constructor
      · exact Or.inr
      · rintro (rfl | hx)
        · exact h
        · exact hx
    · simp [dedup, if_neg h, ih]

/-- Deduplication returns the empty list only on the empty list. -/
lemma dedup_eq_nil_iff : ∀ (l : List Token), dedup l = [] ↔ l = [] := by
  intro l
  induction l with
  | nil => simp [dedup]
  | cons y ys ih =>
    by_cases h : y ∈ ys
    · simp only [dedup, if_pos h, ih]
      constructor
      · rintro rfl; cases h
      · intro hc; cases hc
    · simp [dedup, if_neg h]

/-- Unfolded characterization of the classifier as the conjunction of the
two fast rejects with the disjunction of the three strategies. -/
lemma is_potential_iff (text : List Char) (D : Token → Bool) :
    is_potential_seed_phrase text D = true ↔
      (MIN_SEED_WORDS ≤ (extract_english_words text).length ∧
       MIN_SEED_WORDS ≤ (bip39_matches D (extract_english_words text)).length ∧
       (MIN_SEED_WORDS ≤ maxConsecutive D (extract_english_words text) ∨
        hasDenseWindow D (extract_english_words text) = true ∨
        (extract_english_words text).length ≤
          2 * (bip39_matches D (extract_english_words text)).length)) := by
  simp only [is_potential_seed_phrase]
  split_ifs with h1 h2 h3 h4 h5 <;> simp_all

/-- Unfolded characterization of the extractor returning nothing. -/
lemma extract_eq_nil_iff (text : List Char) (D : Token → Bool) :
    extract_seed_phrases text D = [] ↔
      ((extract_english_words text).length < MIN_SEED_WORDS ∨
       (¬ runsReach D (extract_english_words text) 0 ∧
        hasDenseWindow D (extract_english_words text) = false)) := by
  simp only [extract_seed_phrases]
  split_ifs with h1
  · simp [h1]
  · rw [dedup_eq_nil_iff, List.append_eq_nil]
    constructor
    · rintro ⟨hc, hw⟩
      refine Or.inr ⟨?_, (windowPhrases_eq_nil_iff D _).mp hw⟩
      intro hr
      exact (contiguousAux_ne_nil_iff D _ []).mpr hr hc
    · rintro (h | ⟨hr, hw⟩)
      · exact absurd h h1
      · refine ⟨?_, (windowPhrases_eq_nil_iff D _).mpr hw⟩
        by_contra hc
        exact hr ((contiguousAux_ne_nil_iff D _ []).mp hc)

/-- Filtering with a larger dictionary keeps at least as many matches. -/
lemma filter_length_mono {D D' : Token → Bool}
    (hsub : ∀ w, D w = true → D' w = true) :
    ∀ (words : List Token), (words.filter D).length ≤ (words.filter D').length := by
  intro words
  induction words with
  | nil => simp
  | cons w ws ih =>
    by_cases hw : D w
    · rw [List.filter_cons_of_pos hw, List.filter_cons_of_pos (hsub w hw)]
      simpa using ih
    · rw [List.filter_cons_of_neg hw]
      by_cases hw2 : D' w
      · rw [List.filter_cons_of_pos hw2]
        simp only [List.length_cons]
        exact Nat.le_succ_of_le ih
      · rw [List.filter_cons_of_neg hw2]
        exact ih

/-- The running-maximum loop is monotone in the dictionary and in both
counters. -/
lemma maxConsecutiveAux_mono {D D' : Token → Bool}
    (hsub : ∀ w, D w = true → D' w = true) :
    ∀ (ws : List Token) (cur maxc cur₂ maxc₂ : Nat), cur ≤ cur₂ → maxc ≤ maxc₂ →
      maxConsecutiveAux D ws cur maxc ≤ maxConsecutiveAux D' ws cur₂ maxc₂ := by
  intro ws
  induction ws with
  | nil => intro cur maxc cur₂ maxc₂ _ h2; exact h2
  | cons w ws ih =>
    intro cur maxc cur₂ maxc₂ h1 h2
    simp only [maxConsecutiveAux]
    by_cases hw : D w
    · rw [if_pos hw, if_pos (hsub w hw)]
      refine ih _ _ _ _ (Nat.succ_le_succ h1) ?_
      exact max_le_max h2 (Nat.succ_le_succ h1)
    · rw [if_neg hw]
      by_cases hw2 : D' w
      · rw [if_pos hw2]
        exact ih _ _ _ _ (Nat.zero_le _)
          (Nat.le_trans h2 (Nat.le_max_left _ _))
      · rw [if_neg hw2]
        exact ih _ _ _ _ (Nat.le_refl 0) h2

/-- A dense window stays dense under a larger dictionary. -/
lemma hasDenseWindow_mono {D D' : Token → Bool}
    (hsub : ∀ w, D w = true → D' w = true) (words : List Token)
    (h : hasDenseWindow D words = true) : hasDenseWindow D' words = true := by
  rw [hasDenseWindow, List.any_eq_true] at h ⊢
  obtain ⟨i, hi, hd⟩ := h
  refine ⟨i, hi, ?_⟩
  rw [windowDense, decide_eq_true_iff] at hd ⊢
  have hm : windowHits D words i ≤ windowHits D' words i :=
    filter_length_mono hsub (windowAt words i)
  omega

/-- Characters produced by the substitution step are letters or whitespace,
so a non-whitespace character there is a letter. -/
lemma subNonLetters_letter_of_not_space (text : List Char) (c : Char)
    (hc : c ∈ subNonLetters text) (hns : isPySpace c = false) :
    isAsciiLetter c = true := by
  rw [subNonLetters, List.mem_map] at hc
  obtain ⟨c0, _, rfl⟩ := hc
  by_cases hl : isAsciiLetter c0 || isPySpace c0
  · rw [if_pos hl] at hns ⊢
    rcases Bool.or_eq_true_iff.mp hl with h | h
    · exact h
    · rw [h] at hns; cases hns
  · rw [if_neg hl] at hns
    cases hns

/-- Every token produced by Python `split()` is nonempty and consists of
characters of the input that are not whitespace. -/
lemma pySplitAux_sound (Q : Char → Prop) :
    ∀ (s acc : List Char),
      (∀ c ∈ s, isPySpace c = false → Q c) → (∀ c ∈ acc, Q c) →
      ∀ w ∈ pySplitAux s acc, w ≠ [] ∧ ∀ c ∈ w, Q c := by
  intro s
  induction s with
  | nil =>
    intro acc _ hacc w hw
    simp only [pySplitAux] at hw
    by_cases h : acc.isEmpty
    · rw [if_pos h] at hw; cases hw
    · rw [if_neg h] at hw
      rcases List.mem_singleton.mp hw with rfl
      refine ⟨?_, ?_⟩
      · simp only [ne_eq, List.reverse_eq_nil_iff]
        intro hnil
        rw [hnil] at h
        exact h rfl
      · intro c hc
        exact hacc c (List.mem_reverse.mp hc)
  | cons x xs ih =>
    intro acc hs hacc w hw
    simp only [pySplitAux] at hw
    by_cases hx : isPySpace x
    · rw [if_pos hx] at hw
      by_cases h : acc.isEmpty
      · rw [if_pos h] at hw
        exact ih [] (fun c hc hns => hs c (List.mem_cons_of_mem x hc) hns)
          (by intro c hc; cases hc) w hw
      · rw [if_neg h] at hw
        rcases List.mem_cons.mp hw with rfl | hw2
        · refine ⟨?_, ?_⟩
          · simp only [ne_eq, List.reverse_eq_nil_iff]
            intro hnil
            rw [hnil] at h
            exact h rfl
          · intro c hc
            exact hacc c (List.mem_reverse.mp hc)
        · exact ih [] (fun c hc hns => hs c (List.mem_cons_of_mem x hc) hns)
            (by intro c hc; cases hc) w hw2
    · rw [if_neg hx] at hw
      refine ih (x :: acc) (fun c hc hns => hs c (List.mem_cons_of_mem x hc) hns)
        ?_ w hw
      intro c hc
      rcases List.mem_cons.mp hc with rfl | hc2
      · exact hs c (List.mem_cons_self _ _) (Bool.not_eq_true _ ▸ Bool.of_not_eq_true hx)
      · exact hacc c hc2

/-- Conversion of valid scalar codepoints round-trips through `Char.ofNat`. -/
lemma toNat_ofNat_lower (n : Nat) (h1 : 97 ≤ n) (h2 : n ≤ 122) :
    (Char.ofNat n).toNat = n := by
  have hv : n.isValidChar := Or.inl (by omega)
  rw [Char.ofNat, dif_pos hv]
  simp [Char.ofNatAux, Char.toNat, UInt32.toNat, BitVec.toNat_ofNatLt]

/-- Lowercasing an ASCII letter lands in the range `a`-`z`. -/
lemma pyLowerChar_range (c : Char) (h : isAsciiLetter c = true) :
    97 ≤ (pyLowerChar c).toNat ∧ (pyLowerChar c).toNat ≤ 122 := by
  rw [isAsciiLetter, decide_eq_true_iff] at h
  rw [pyLowerChar]
  by_cases hu : 65 ≤ c.toNat ∧ c.toNat ≤ 90
  · rw [if_pos hu, toNat_ofNat_lower (c.toNat + 32) (by omega) (by omega)]
    omega
  · rw [if_neg hu]
    omega

/-- Consuming a block of all-dictionary tokens extends the run in
progress. -/
lemma runsReach_append_all (D : Token → Bool) :
    ∀ (mid rest : List Token) (cur : Nat), (∀ w ∈ mid, D w = true) →
      MIN_SEED_WORDS ≤ cur + mid.length → runsReach D (mid ++ rest) cur := by
  intro mid
  induction mid with
  | nil =>
    intro rest cur _ hlen
    simp only [List.nil_append]
    exact runsReach_of_le D rest cur (by simpa using hlen)
  | cons w mid ih =>
    intro rest cur hall hlen
    have hw : D w = true := hall w (List.mem_cons_self _ _)
    simp only [List.cons_append, runsReach]
    rw [if_pos hw]
    refine ih rest (cur + 1) (fun x hx => hall x (List.mem_cons_of_mem w hx)) ?_
    simp only [List.length_cons] at hlen
    omega

/-- A reachable run stays reachable under any tokens placed before it. -/
lemma runsReach_extend_left (D : Token → Bool) :
    ∀ (pre rest : List Token) (cur : Nat),
      runsReach D rest 0 → runsReach D (pre ++ rest) cur := by
  intro pre
  induction pre with
  | nil =>
    intro rest cur h
    simpa using runsReach_mono_cur D rest 0 cur (Nat.zero_le cur) h
  | cons w pre ih =>
    intro rest cur h
    simp only [List.cons_append, runsReach]
    by_cases hw : D w
    · rw [if_pos hw]
      exact ih rest (cur + 1) h
    · rw [if_neg hw]
      exact Or.inr (ih rest 0 h)

/-- A contiguous all-dictionary block of threshold length anywhere in the
token sequence makes a run reachable. -/
lemma runsReach_of_block (D : Token → Bool) (pre mid post : List Token)
    (hall : ∀ w ∈ mid, D w = true) (hlen : MIN_SEED_WORDS ≤ mid.length) :
    runsReach D (pre ++ mid ++ post) 0 := by
  rw [List.append_assoc]
  exact runsReach_extend_left D pre (mid ++ post) 0
    (runsReach_append_all D mid post 0 hall (by omega))

/-! Settlement of the claims. -/

/-- C1: counterexample to the claim that a nonempty extraction forces a true
classification.  On the 12-token text with 11 dictionary hits the extractor
emits a phrase from its dense-window method while the classifier returns
false, having fast-rejected for fewer than `MIN_SEED_WORDS` total hits. -/
theorem C1_counterexample :
    extract_seed_phrases c2text specDict ≠ [] ∧
      is_potential_seed_phrase c2text specDict = false := by
  constructor
  · decide
  · decide

/-- C1 (amended): a false classification implies that extraction is empty or
that the text has fewer than `MIN_SEED_WORDS` dictionary hits in total; with
at least `MIN_SEED_WORDS` total hits, nonempty extraction does force a true
classification. -/
theorem C1_amended (t : List Char) (D : Token → Bool)
    (h : is_potential_seed_phrase t D = false) :
    extract_seed_phrases t D = [] ∨
      (bip39_matches D (extract_english_words t)).length < MIN_SEED_WORDS := by
  by_cases hm : (bip39_matches D (extract_english_words t)).length < MIN_SEED_WORDS
  · exact Or.inr hm
  · left
    rw [extract_eq_nil_iff]
    have hnot : ¬ (is_potential_seed_phrase t D = true) := by simp [h]
    rw [is_potential_iff] at hnot
    push_neg at hnot
    by_cases hlen : (extract_english_words t).length < MIN_SEED_WORDS
    · exact Or.inl hlen
    · right
      have h3 := hnot (by omega) (by omega)
      push_neg at h3
      obtain ⟨hr, hw, _⟩ := h3
      constructor
      · intro hrr
        have hge := (maxConsecutive_ge_iff D _).mpr hrr
        omega
      · exact Bool.eq_false_iff.mpr hw

/-- C1 witness: on the spec's zero-hit text the classifier returns false and
the amended dichotomy holds. -/
theorem C1_amended_witness :
    extract_seed_phrases ("hello world this is not related at all").toList
        specDict = [] ∨
      (bip39_matches specDict (extract_english_words
        ("hello world this is not related at all").toList)).length <
        MIN_SEED_WORDS :=
  C1_amended _ specDict (by decide)

/-- C2: counterexample.  On the text
`abandon ability able xyz about above absent absorb abstract absurd abuse
access` with the 12-word dictionary, the classifier does not return true. -/
theorem C2_counterexample :
    ¬ (is_potential_seed_phrase c2text specDict = true) := by decide

/-- C2 (amended): that text tokenizes to 12 tokens of which 11 are
dictionary members, its single window is dense (11 of 12 hits meets the 90%
threshold), yet the classifier returns false: the fast reject for fewer
than `MIN_SEED_WORDS` total hits fires before the dense-window strategy is
consulted. -/
theorem C2_amended :
    (extract_english_words c2text).length = 12 ∧
      (bip39_matches specDict (extract_english_words c2text)).length = 11 ∧
      hasDenseWindow specDict (extract_english_words c2text) = true ∧
      is_potential_seed_phrase c2text specDict = false := by
  refine ⟨by decide, by decide, by decide, by decide⟩

/-- C3: exactly `MIN_SEED_WORDS - 1` dictionary hits always classify false,
and a contiguous block of exactly `MIN_SEED_WORDS` dictionary tokens always
classifies true. -/
theorem C3_boundary : ∀ (t : List Char) (D : Token → Bool),
    ((bip39_matches D (extract_english_words t)).length =
        MIN_SEED_WORDS - 1 → is_potential_seed_phrase t D = false) ∧
    (∀ pre mid post, extract_english_words t = pre ++ mid ++ post →
      mid.length = MIN_SEED_WORDS → (∀ w ∈ mid, D w = true) →
      is_potential_seed_phrase t D = true) := by
  intro t D
  constructor
  · intro h
    cases hb : is_potential_seed_phrase t D
    · rfl
    · exfalso
      obtain ⟨_, h2, _⟩ := (is_potential_iff t D).mp hb
      rw [h] at h2
      have hM : MIN_SEED_WORDS = 12 := rfl
      omega
  · intro pre mid post heq hlen hall
    rw [is_potential_iff]
    have hrun : runsReach D (extract_english_words t) 0 := by
      rw [heq]
      exact runsReach_of_block D pre mid post hall (Nat.le_of_eq hlen.symm)
    have hmid : mid.filter D = mid := List.filter_eq_self.mpr hall
    have hmatch : MIN_SEED_WORDS ≤
        (bip39_matches D (extract_english_words t)).length := by
      rw [heq, bip39_matches, List.filter_append, List.filter_append, hmid,
        List.length_append, List.length_append]
      omega
    have hlenw : MIN_SEED_WORDS ≤ (extract_english_words t).length := by
      rw [heq, List.length_append, List.length_append]
      omega
    exact ⟨hlenw, hmatch, Or.inl ((maxConsecutive_ge_iff D _).mpr hrun)⟩

/-- C3 witness: the 12-token text with 11 hits classifies false, and the
pure 12-word text (a contiguous block of 12 dictionary tokens) classifies
true. -/
theorem C3_boundary_witness :
    is_potential_seed_phrase c2text specDict = false ∧
      is_potential_seed_phrase c5text specDict = true := by
  constructor
  · exact (C3_boundary c2text specDict).1 (by decide)
  · exact (C3_boundary c5text specDict).2 [] (extract_english_words c5text) []
      (by simp) (by decide) (by decide)

/-- C4: with the empty dictionary the classifier returns false on every
text. -/
theorem C4_empty_dict : ∀ (t : List Char),
    is_potential_seed_phrase t (fun _ => false) = false := by
  intro t
  cases hb : is_potential_seed_phrase t (fun _ => false)
  · rfl
  · exfalso
    obtain ⟨_, h2, _⟩ := (is_potential_iff t _).mp hb
    simp [bip39_matches, MIN_SEED_WORDS] at h2

/-- C5: the space-joined 12-word dictionary text classifies true, the
contiguous-run strategy's condition holds, and extraction returns exactly
that 12-word string as its only phrase. -/
theorem C5_exact :
    is_potential_seed_phrase c5text specDict = true ∧
      MIN_SEED_WORDS ≤ maxConsecutive specDict (extract_english_words c5text) ∧
      extract_seed_phrases c5text specDict = [c5text] := by
  refine ⟨by decide, by decide, by decide⟩

/-- C6: the dense-window threshold comparison, taken exactly (never
floored), holds for a window precisely when the window has at least 11
dictionary hits; in particular it never holds with only 10. -/
theorem C6_threshold : ∀ (D : Token → Bool) (words : List Token) (i : Nat),
    windowDense D words i = true ↔ 11 ≤ windowHits D words i := by
  intro D words i
  rw [windowDense, decide_eq_true_iff]
  have hM : MIN_SEED_WORDS = 12 := rfl
  omega

/-- C7: the loader returns the empty set whenever the file is missing or
unreadable, and on success its result contains exactly the
whitespace-trimmed nonempty lines of the file, verbatim (no case
normalization). -/
theorem C7_loader :
    load_bip39_words none = [] ∧
    ∀ (lines : List (List Char)) (w : Token),
      (w ∈ load_bip39_words (some lines) ↔
        w ≠ [] ∧ ∃ line ∈ lines, pyStrip line = w) := by
  refine ⟨rfl, ?_⟩
  intro lines w
  simp only [load_bip39_words]
  rw [mem_dedup, List.mem_map]
  constructor
  · rintro ⟨l, hl, rfl⟩
    rw [List.mem_filter] at hl
    obtain ⟨hl1, hl2⟩ := hl
    refine ⟨?_, l, hl1, rfl⟩
    simpa using hl2
  · rintro ⟨hne, l, hl, rfl⟩
    refine ⟨l, List.mem_filter.mpr ⟨hl, ?_⟩, rfl⟩
    simpa using hne

/-- C8: every token produced by the tokenizer is nonempty and consists only
of lowercase ASCII letters (codepoints 97 to 122). -/
theorem C8_tokens : ∀ (t : List Char) (w : Token),
    w ∈ extract_english_words t →
    w ≠ [] ∧ ∀ c ∈ w, 97 ≤ c.toNat ∧ c.toNat ≤ 122 := by
  intro t w hw
  rw [extract_english_words, List.mem_map] at hw
  obtain ⟨w0, hw0, rfl⟩ := hw
  rw [List.mem_filter] at hw0
  obtain ⟨hw0s, _⟩ := hw0
  rw [pySplit] at hw0s
  have hsound := pySplitAux_sound (fun c => isAsciiLetter c = true)
    (subNonLetters t) []
    (fun c hc hns => subNonLetters_letter_of_not_space t c hc hns)
    (by intro c hc; cases hc) w0 hw0s
  obtain ⟨hne, hchars⟩ := hsound
  constructor
  · simpa using hne
  · intro c hc
    rw [List.mem_map] at hc
    obtain ⟨c0, hc0, rfl⟩ := hc
    exact pyLowerChar_range c0 (hchars c0 hc0)

/-- C8 witness: on a concrete mixed text the token `ab` is nonempty and
lowercase-ASCII only. -/
theorem C8_tokens_witness :
    (['a', 'b'] : Token) ≠ [] ∧
      ∀ c ∈ (['a', 'b'] : Token), 97 ≤ c.toNat ∧ c.toNat ≤ 122 :=
  C8_tokens ("Ab1 ,c").toList ['a', 'b'] (by decide)

/-- C9: the classifier instrumented for its division never signals a
division by zero: on every input it returns exactly the plain classifier's
boolean.  The tokenizer and extractor contain no fallible operation in the
embedding, so totality of all three functions reduces to this equation. -/
theorem C9_total : ∀ (t : List Char) (D : Token → Bool),
    is_potential_seed_phrase_checked t D = some (is_potential_seed_phrase t D) := by
  intro t D
  have hM : MIN_SEED_WORDS = 12 := rfl
  simp only [is_potential_seed_phrase_checked, is_potential_seed_phrase]
  split_ifs <;> first
    | rfl
    | omega

/-- C10: the classifier is monotone in the dictionary: enlarging the
dictionary never turns a true classification false. -/
theorem C10_monotone : ∀ (t : List Char) (D D' : Token → Bool),
    (∀ w, D w = true → D' w = true) →
    is_potential_seed_phrase t D = true → is_potential_seed_phrase t D' = true := by
  intro t D D' hsub h
  rw [is_potential_iff] at h ⊢
  obtain ⟨h1, h2, h3⟩ := h
  have hm : (bip39_matches D (extract_english_words t)).length ≤
      (bip39_matches D' (extract_english_words t)).length :=
    filter_length_mono hsub _
  refine ⟨h1, Nat.le_trans h2 hm, ?_⟩
  rcases h3 with h3 | h3 | h3
  · left
    exact Nat.le_trans h3 (maxConsecutiveAux_mono hsub
      (extract_english_words t) 0 0 0 0 (Nat.le_refl 0) (Nat.le_refl 0))
  · exact Or.inr (Or.inl (hasDenseWindow_mono hsub _ h3))
  · right; right
    omega

/-- Dictionary extending the 12 spec words by one extra word. -/
def extendedDict : Token → Bool :=
  fun w => specDict w || decide (w = ("zebra").toList)

/-- C10 witness: the 12-word text stays classified true after enlarging the
dictionary. -/
theorem C10_monotone_witness :
    is_potential_seed_phrase c5text extendedDict = true :=
  C10_monotone c5text specDict extendedDict
    (fun w h => by simp only [extendedDict, h, Bool.true_or]) (by decide)

end DelBip39
